import Mathlib

/- Verification of the MKW Mogi Tracker core: track-name canonicalization,
the session lifecycle engine and bulk import, shallowly embedded from
mogi/models.py, mogi/api.py and the management commands of the repository.
Python strings are modelled as Lean strings (lists of characters);
`str.lower()` and whitespace are modelled over the ASCII range. -/

/-! ## Track canonicalization (mogi/models.py) -/

/-- The ASCII whitespace characters of Python's `str.split()` and of the
regex class \s: space, tab, newline, carriage return, vertical tab,
form feed. -/
def isPySpace (c : Char) : Bool :=
  c == ' ' || c == '\t' || c == '\n' || c == '\r' || c == '\x0b' || c == '\x0c'

/-- The 26 ASCII case pairs: Python's `str.lower()` restricted to ASCII. -/
def lowerPairs : List (Char × Char) :=
  [( 'A', 'a'), ( 'B', 'b'), ( 'C', 'c'), ( 'D', 'd'), ( 'E', 'e'), ( 'F', 'f'),
   ( 'G', 'g'), ( 'H', 'h'), ( 'I', 'i'), ( 'J', 'j'), ( 'K', 'k'), ( 'L', 'l'),
   ( 'M', 'm'), ( 'N', 'n'), ( 'O', 'o'), ( 'P', 'p'), ( 'Q', 'q'), ( 'R', 'r'),
   ( 'S', 's'), ( 'T', 't'), ( 'U', 'u'), ( 'V', 'v'), ( 'W', 'w'), ( 'X', 'x'),
   ( 'Y', 'y'), ( 'Z', 'z')]

/-- Lower-case one character (Python `str.lower()`, ASCII model). -/
def toLowerChar (c : Char) : Char :=
  ((lowerPairs.find? (fun p => p.1 == c)).map Prod.snd).getD c

/-- The curly right single quotation mark U+2019 that the canonicalizer
rewrites to a straight apostrophe. -/
def rsquo : Char := '’'

/-- One character of Python's `.replace("’", "'")`. -/
def replApos (c : Char) : Char := if c == rsquo then '\'' else c

/-- Python `str.lower()` over a character list. -/
def pyLower (l : List Char) : List Char := l.map toLowerChar

/-- Python `str.replace("’", "'")` over a character list. -/
def pyReplace (l : List Char) : List Char := l.map replApos

/-- Python `str.strip()`: drop leading and trailing whitespace. -/
def pyStrip (l : List Char) : List Char :=
  ((l.dropWhile isPySpace).reverse.dropWhile isPySpace).reverse

/-- Accumulator loop behind `str.split()`: `acc` is the current word,
reversed. -/
def splitAux : List Char → List Char → List (List Char)
  | [], acc => if acc.isEmpty then [] else [acc.reverse]
  | c :: cs, acc =>
    if isPySpace c then
      if acc.isEmpty then splitAux cs [] else acc.reverse :: splitAux cs []
    else splitAux cs (c :: acc)

/-- Python's `str.split()` with no separator: the maximal nonempty runs of
non-whitespace characters. -/
def splitWords (l : List Char) : List (List Char) := splitAux l []

/-- Python's `" ".join(words)`. -/
def joinWords : List (List Char) → List Char
  | [] => []
  | [w] => w
  | w :: ws => w ++ ' ' :: joinWords ws

/-- The normalization `" ".join(raw.strip().lower().replace("’", "'").split())`
of `canonicalize_track` (mogi/models.py line 28). -/
def normalizeChars (l : List Char) : List Char :=
  joinWords (splitWords (pyReplace (pyLower (pyStrip l))))

/-- `CANON_MAP` (mogi/models.py lines 10-23): the static alias dictionary,
as its (key, value) pairs in source order. -/
def CANON_MAP : List (String × String) :=
  [("bowser castle", "bowser's castle"),
   ("bowsers castle", "bowser's castle"),
   ("bowser\u2019s castle", "bowser's castle"),
   ("bowser castle 1", "bowser's castle"),
   ("bowser castle 2", "bowser's castle"),
   ("bowser castle 3", "bowser's castle"),
   ("bowser castle 4", "bowser's castle"),
   ("bowser's castle 1", "bowser's castle"),
   ("bowser's castle 2", "bowser's castle"),
   ("bowser's castle 3", "bowser's castle"),
   ("bowser's castle 4", "bowser's castle"),
   ("bc", "bowser's castle")]

/-- `CANON_MAP.get name`: dictionary lookup by key. -/
def canonGet (name : String) : Option String :=
  (CANON_MAP.find? (fun p => p.1 == name)).map Prod.snd

/-- `canonicalize_track` (mogi/models.py lines 25-29): empty input maps to
the empty string, other input is normalized and passed through the alias
dictionary, defaulting to itself. -/
def canonicalize_track (raw : String) : String :=
  if raw = "" then ""
  else
    let name : String := ⟨normalizeChars raw.data⟩
    (canonGet name).getD name

/-! ## Slug derivation: `slug_for_track` = django.utils.text.slugify -/

/-- The regex class \w over the ASCII remnant: alphanumerics and the
underscore. -/
def isWordChar (c : Char) : Bool := c.isAlphanum || c == '_'

/-- The regex class [-\s]. -/
def isDashSpace (c : Char) : Bool := c == '-' || isPySpace c

/-- Django slugify's `unicodedata.normalize("NFKD", value).encode("ascii",
"ignore")`, modelled as dropping the non-ASCII code points. -/
def asciiIgnore (l : List Char) : List Char := l.filter (fun c => c.toNat < 128)

/-- Loop behind `re.sub(r"[-\s]+", "-", value)`: a maximal run of
whitespace-or-hyphen characters becomes one hyphen; the flag says whether
the previous character belonged to such a run. -/
def collapseAux : List Char → Bool → List Char
  | [], _ => []
  | c :: cs, inRun =>
    if isDashSpace c then
      if inRun then collapseAux cs true else '-' :: collapseAux cs true
    else c :: collapseAux cs false

/-- `re.sub(r"[-\s]+", "-", value)`. -/
def collapseDashSpace (l : List Char) : List Char := collapseAux l false

/-- The strip set of `value.strip("-_")`. -/
def isDashUnderscore (c : Char) : Bool := c == '-' || c == '_'

/-- Python `value.strip("-_")`. -/
def stripDashUnderscore (l : List Char) : List Char :=
  ((l.dropWhile isDashUnderscore).reverse.dropWhile isDashUnderscore).reverse

/-- `django.utils.text.slugify(value)` with `allow_unicode=False`: NFKD plus
ascii-ignore, then `re.sub(r"[^\w\s-]", "", value.lower())`, then
`re.sub(r"[-\s]+", "-", value).strip("-_")`. -/
def slugify (s : String) : String :=
  ⟨stripDashUnderscore (collapseDashSpace
      ((pyLower (asciiIgnore s.data)).filter
        (fun c => isWordChar c || isPySpace c || c == '-')))⟩

/-- `slug_for_track` (mogi/models.py lines 31-32). -/
def slug_for_track (canon : String) : String := slugify canon

/-! ## Points table (mogi/models.py lines 57-60) -/

/-- `DEFAULT_POINTS.get(position, 0)`: the fixed finishing-position points
dictionary, with the dictionary-get default 0. -/
def DEFAULT_POINTS (position : Nat) : Int :=
  if position = 1 then 15 else if position = 2 then 12
  else if position = 3 then 10 else if position = 4 then 9
  else if position = 5 then 8 else if position = 6 then 7
  else if position = 7 then 6 else if position = 8 then 5
  else if position = 9 then 4 else if position = 10 then 3
  else if position = 11 then 2 else if position = 12 then 1
  else 0

/-- `Race.save` (mogi/models.py lines 113-116): a falsy (zero) points value
is replaced by the position's default. -/
def raceSavePoints (position : Nat) (points : Int) : Int :=
  if points = 0 then DEFAULT_POINTS position else points

example : canonicalize_track "  Bowser   Castle 2 " = "bowser's castle" := by decide

example : canonicalize_track "Toad Circuit" = "toad circuit" := by decide

example : slug_for_track "bowser's castle" = "bowsers-castle" := by decide

/-! ## Persisted state and the session engine (mogi/api.py)

Rows are kept in lists in creation order (`created_at` ascending, matching
the `Mogi.objects.create` append and the `ordering = ["created_at"]` of the
model); identifiers are handed out from per-table counters. -/

/-- A row of the global track catalog. -/
structure TrackRow where
  tid : Nat
  name : String
  slug : String
deriving DecidableEq

/-- A session ("mogi") row. -/
structure MogiRow where
  mid : Nat
  owner : Nat
  finalized : Bool
  note : String
deriving DecidableEq

/-- A race row. -/
structure RaceRow where
  rid : Nat
  mogi : Nat
  track : Nat
  index : Nat
  position : Nat
  points : Int
deriving DecidableEq

/-- The relational store. -/
structure DB where
  tracks : List TrackRow
  mogis : List MogiRow
  races : List RaceRow
  nextTrackId : Nat
  nextMogiId : Nat
  nextRaceId : Nat
deriving DecidableEq

/-- The store with no rows. -/
def emptyDB : DB := ⟨[], [], [], 0, 0, 0⟩

/-- The races of one session, in row order. -/
def racesOf (db : DB) (mid : Nat) : List RaceRow :=
  db.races.filter (fun r => r.mogi == mid)

/-- `mogi.races.aggregate(mx=models.Max("index"))["mx"] or 0`. -/
def maxIndex (rs : List RaceRow) : Nat :=
  rs.foldr (fun r acc => max r.index acc) 0

/-- `_current_mogi` (mogi/api.py lines 9-11): the owner's first
non-finalized session in creation order, created if none exists. -/
def current_mogi (u : Nat) (db : DB) : MogiRow × DB :=
  match db.mogis.find? (fun m => m.owner == u && m.finalized == false) with
  | some m => (m, db)
  | none =>
    let m : MogiRow := ⟨db.nextMogiId, u, false, ""⟩
    (m, { db with mogis := db.mogis ++ [m], nextMogiId := db.nextMogiId + 1 })

/-- `_get_or_create_track` (mogi/api.py lines 13-16): canonicalize, look the
canonical name up, else create; `Track.save` re-canonicalizes the name and
recomputes the slug on the way in (mogi/models.py lines 44-48). -/
def getOrCreateTrack (raw : String) (db : DB) : TrackRow × DB :=
  let canon := canonicalize_track raw
  match db.tracks.find? (fun t => t.name == canon) with
  | some t => (t, db)
  | none =>
    let name2 := canonicalize_track canon
    let t : TrackRow := ⟨db.nextTrackId, name2, slug_for_track name2⟩
    (t, { db with tracks := db.tracks ++ [t], nextTrackId := db.nextTrackId + 1 })

/-- Outcome of `add_race`. -/
inductive AddRaceResult where
  | ok (mogiId : Nat) (nextIndex : Nat)
  | invalidInput
  | capacityFull
deriving DecidableEq

/-- `add_race` (mogi/api.py lines 20-37): validate the payload, resolve the
current session, compute the next index, reject a 13th race, resolve the
track and create the race (whose points default via `Race.save`). -/
def add_race (u : Nat) (trackRaw : String) (position : Int) (db : DB) :
    AddRaceResult × DB :=
  if trackRaw = "" ∨ position < 1 ∨ position > 12 then (.invalidInput, db)
  else
    let mdb := current_mogi u db
    let next := maxIndex (racesOf mdb.2 mdb.1.mid) + 1
    if next > 12 then (.capacityFull, mdb.2)
    else
      let tdb := getOrCreateTrack trackRaw mdb.2
      let r : RaceRow :=
        ⟨tdb.2.nextRaceId, mdb.1.mid, tdb.1.tid, next, position.toNat,
          raceSavePoints position.toNat 0⟩
      (.ok mdb.1.mid next, { tdb.2 with races := tdb.2.races ++ [r],
                                        nextRaceId := tdb.2.nextRaceId + 1 })

/-- `undo_last` (mogi/api.py lines 41-47): delete the current session's race
of highest index; report `false` (the "No races to undo" reply) if there is
none. -/
def undo_last (u : Nat) (db : DB) : Bool × DB :=
  let mdb := current_mogi u db
  let mrs := racesOf mdb.2 mdb.1.mid
  match mrs.find? (fun r => r.index == maxIndex mrs) with
  | none => (false, mdb.2)
  | some last =>
    (true, { mdb.2 with races := mdb.2.races.filter (fun x => x.rid != last.rid) })

/-- `reset_current` (mogi/api.py lines 51-54): delete every race of the
current session. -/
def reset_current (u : Nat) (db : DB) : DB :=
  let mdb := current_mogi u db
  { mdb.2 with races := mdb.2.races.filter (fun r => r.mogi != mdb.1.mid) }

/-- `finalize_current` (mogi/api.py lines 58-64): reject unless the current
session has exactly 12 races, else set its finalized flag. -/
def finalize_current (u : Nat) (db : DB) : Option Nat × DB :=
  let mdb := current_mogi u db
  if (racesOf mdb.2 mdb.1.mid).length ≠ 12 then (none, mdb.2)
  else
    (some mdb.1.mid,
     { mdb.2 with mogis := mdb.2.mogis.map (fun x =>
         if x.mid = mdb.1.mid then { x with finalized := true } else x) })

/-! ## Bulk import endpoint (mogi/api.py lines 75-105) -/

/-- One entry of the payload's `tracks` list. -/
structure ImpTrack where
  id : Nat
  name : String
deriving DecidableEq

/-- One entry of the payload's `mogis` list (`note` defaults to ""). -/
structure ImpMogi where
  id : Nat
  finalized : Bool
  note : String
deriving DecidableEq

/-- One entry of the payload's `races` list. -/
structure ImpRace where
  mogi_id : Nat
  track_id : Nat
  index : Nat
  position : Nat
  points : Int
deriving DecidableEq

/-- A decoded Shape-A import payload. -/
structure ImportPayload where
  tracks : List ImpTrack
  mogis : List ImpMogi
  races : List ImpRace
deriving DecidableEq

/-- The `tracks` loop of `import_data`: get-or-create each entry by its
canonical name and record the id mapping (a later duplicate id overwrites,
as in a Python dict). -/
def importTracks : List ImpTrack → List (Nat × Nat) → DB → List (Nat × Nat) × DB
  | [], tmap, db => (tmap, db)
  | t :: ts, tmap, db =>
    let tdb := getOrCreateTrack t.name db
    importTracks ts ((t.id, tdb.1.tid) :: tmap) tdb.2

/-- The `mogis` loop of `import_data`: create a session per entry for the
target user and record the id mapping. -/
def importMogis (u : Nat) : List ImpMogi → List (Nat × Nat) → DB → List (Nat × Nat) × DB
  | [], mmap, db => (mmap, db)
  | m :: ms, mmap, db =>
    let obj : MogiRow := ⟨db.nextMogiId, u, m.finalized, m.note⟩
    importMogis u ms ((m.id, obj.mid) :: mmap)
      { db with mogis := db.mogis ++ [obj], nextMogiId := db.nextMogiId + 1 }

/-- The `races` loop of `import_data`: each race is created against the
mapped session and track ids (`Race.save` defaulting falsy points); an
unmapped id is the Python `KeyError`, which aborts the whole transaction. -/
def importRaces (tmap mmap : List (Nat × Nat)) : List ImpRace → DB → Except Unit DB
  | [], db => .ok db
  | r :: rs, db =>
    match mmap.lookup r.mogi_id, tmap.lookup r.track_id with
    | some mid, some tid =>
      let race : RaceRow :=
        ⟨db.nextRaceId, mid, tid, r.index, r.position,
          raceSavePoints r.position r.points⟩
      importRaces tmap mmap rs
        { db with races := db.races ++ [race], nextRaceId := db.nextRaceId + 1 }
    | _, _ => .error ()

/-- `import_data` (mogi/api.py lines 75-105): the three loops inside one
`transaction.atomic()` block; an error rolls the whole call back. -/
def import_data (u : Nat) (p : ImportPayload) (db : DB) : Except Unit DB :=
  let tdb := importTracks p.tracks [] db
  let mdb := importMogis u p.mogis [] tdb.2
  importRaces tdb.1 mdb.1 p.races mdb.2

/-- The state a caller of the endpoint observes: on an error the
transaction is rolled back and the store is unchanged. -/
def runImport (u : Nat) (p : ImportPayload) (db : DB) : DB :=
  match import_data u p db with
  | .ok db1 => db1
  | .error _ => db

/-! ## Maintenance: recanonicalize_tracks (management command)

The command iterates the catalog, re-canonicalizes each track in place and
merges a track whose recomputed name was already seen into the first track
that produced that name, reassigning its races and deleting it. -/

/-- The catalog state the command works on. -/
structure RState where
  tracks : List TrackRow
  races : List RaceRow
deriving DecidableEq

/-- The loop of `recanonicalize_tracks` (lines 11-22): `cmap` is the
`canon_map` dictionary (canonical name, surviving track id), `acc` the
already-processed tracks. The first branch is the in-place rename through
`Track.save` (which canonicalizes `canon` once more and recomputes the
slug); the second reassigns the duplicate's races and deletes it. -/
def recanonGo : List TrackRow → List (String × Nat) → List TrackRow →
    List RaceRow → List TrackRow × List RaceRow
  | [], _, acc, races => (acc, races)
  | tr :: rest, cmap, acc, races =>
    let canon := canonicalize_track tr.name
    match cmap.lookup canon with
    | none =>
      let tr2 : TrackRow :=
        ⟨tr.tid, canonicalize_track canon, slug_for_track (canonicalize_track canon)⟩
      recanonGo rest ((canon, tr2.tid) :: cmap) (acc ++ [tr2]) races
    | some targetId =>
      recanonGo rest cmap acc
        (races.map (fun r => if r.track = tr.tid then { r with track := targetId } else r))

/-- `Command.handle` of recanonicalize_tracks: the whole pass over the
catalog inside one transaction. -/
def recanonAll (st : RState) : RState :=
  let (ts, rs) := recanonGo st.tracks [] [] st.races
  ⟨ts, rs⟩

example :
    recanonAll ⟨[⟨1, "BC", "bc"⟩, ⟨2, "bowser's castle", "bowsers-castle"⟩],
                [⟨1, 0, 1, 1, 1, 15⟩, ⟨2, 0, 2, 2, 2, 12⟩]⟩ =
    ⟨[⟨1, "bowser's castle", "bowsers-castle"⟩],
     [⟨1, 0, 1, 1, 1, 15⟩, ⟨2, 0, 1, 2, 2, 12⟩]⟩ := by decide

/-! ## Character-level facts for canonicalization -/

theorem toLowerChar_pairs : ∀ p ∈ lowerPairs, toLowerChar p.2 = p.2 := by decide

theorem toLowerChar_cases (c : Char) :
    toLowerChar c = c ∨ ∃ p ∈ lowerPairs, toLowerChar c = p.2 := by
  unfold toLowerChar
  cases h : lowerPairs.find? (fun p => p.1 == c) with
  | none => left; rfl
  | some p =>
    right
    exact ⟨p, List.mem_of_find?_eq_some h, rfl⟩

theorem toLowerChar_idem (c : Char) :
    toLowerChar (toLowerChar c) = toLowerChar c := by
  rcases toLowerChar_cases c with h | ⟨p, hp, h⟩
  · rw [h, h]
  · rw [h]; exact toLowerChar_pairs p hp

theorem replApos_fix (c : Char) (h : c ≠ rsquo) : replApos c = c := by
  simp [replApos, h]

theorem stage_fix (c : Char) :
    toLowerChar (replApos (toLowerChar c)) = replApos (toLowerChar c) ∧
    replApos (replApos (toLowerChar c)) = replApos (toLowerChar c) := by
  by_cases h : toLowerChar c = rsquo
  · rw [h]; exact ⟨by decide, by decide⟩
  · rw [replApos_fix _ h]
    exact ⟨toLowerChar_idem c, replApos_fix _ h⟩

/-! ## Facts about splitting and joining words -/

theorem splitAux_wordsOK (l : List Char) : ∀ (acc : List Char),
    (∀ c ∈ acc, isPySpace c = false) →
    ∀ w ∈ splitAux l acc, w ≠ [] ∧ ∀ c ∈ w, isPySpace c = false := by
  induction l with
  | nil =>
    intro acc hacc w hw
    cases acc with
    | nil => simp [splitAux] at hw
    | cons a as =>
      simp only [splitAux, List.isEmpty_cons, Bool.false_eq_true, if_false,
        List.mem_singleton] at hw
      subst hw
      exact ⟨by simp, fun c hc => hacc c (List.mem_reverse.mp hc)⟩
  | cons d ds ih =>
    intro acc hacc w hw
    by_cases hd : isPySpace d
    · cases acc with
      | nil =>
        simp only [splitAux, hd, if_true, List.isEmpty_nil] at hw
        exact ih [] (by simp) w hw
      | cons a as =>
        simp only [splitAux, hd, if_true, List.isEmpty_cons, Bool.false_eq_true,
          if_false, List.mem_cons] at hw
        rcases hw with hw | hw
        · subst hw
          exact ⟨by simp, fun c hc => hacc c (List.mem_reverse.mp hc)⟩
        · exact ih [] (by simp) w hw
    · simp only [splitAux, hd, Bool.false_eq_true, if_false] at hw
      refine ih (d :: acc) ?_ w hw
      intro c hc
      rcases List.mem_cons.mp hc with rfl | hc
      · simpa using hd
      · exact hacc c hc

theorem splitAux_mem (l : List Char) : ∀ (acc w : List Char) (c : Char),
    w ∈ splitAux l acc → c ∈ w → c ∈ l ∨ c ∈ acc := by
  induction l with
  | nil =>
    intro acc w c hw hc
    cases acc with
    | nil => simp [splitAux] at hw
    | cons a as =>
      simp only [splitAux, List.isEmpty_cons, Bool.false_eq_true, if_false,
        List.mem_singleton] at hw
      subst hw
      exact Or.inr (List.mem_reverse.mp hc)
  | cons d ds ih =>
    intro acc w c hw hc
    by_cases hd : isPySpace d
    · cases acc with
      | nil =>
        simp only [splitAux, hd, if_true, List.isEmpty_nil] at hw
        rcases ih [] w c hw hc with h | h
        · exact Or.inl (by simp [h])
        · simp at h
      | cons a as =>
        simp only [splitAux, hd, if_true, List.isEmpty_cons, Bool.false_eq_true,
          if_false, List.mem_cons] at hw
        rcases hw with hw | hw
        · subst hw
          exact Or.inr (List.mem_reverse.mp hc)
        · rcases ih [] w c hw hc with h | h
          · exact Or.inl (by simp [h])
          · simp at h
    · simp only [splitAux, hd, Bool.false_eq_true, if_false] at hw
      rcases ih (d :: acc) w c hw hc with h | h
      · exact Or.inl (by simp [h])
      · rcases List.mem_cons.mp h with rfl | h
        · exact Or.inl (by simp)
        · exact Or.inr h

theorem splitAux_word (w : List Char) : ∀ (l acc : List Char),
    (∀ c ∈ w, isPySpace c = false) →
    splitAux (w ++ l) acc = splitAux l (w.reverse ++ acc) := by
  induction w with
  | nil => intro l acc _; simp
  | cons c w ih =>
    intro l acc h
    have hc : isPySpace c = false := h c (by simp)
    simp only [List.cons_append, splitAux, hc, Bool.false_eq_true, if_false,
      List.append_eq]
    rw [ih l (c :: acc) (fun d hd => h d (by simp [hd]))]
    simp

theorem joinWords_cons_cons (w w2 : List Char) (ws : List (List Char)) :
    joinWords (w :: w2 :: ws) = w ++ ' ' :: joinWords (w2 :: ws) := rfl

theorem splitWords_joinWords : ∀ (ws : List (List Char)),
    (∀ w ∈ ws, w ≠ [] ∧ ∀ c ∈ w, isPySpace c = false) →
    splitWords (joinWords ws) = ws := by
  intro ws
  induction ws with
  | nil => intro _; rfl
  | cons w ws ih =>
    intro h
    obtain ⟨hne, hw⟩ := h w (by simp)
    cases ws with
    | nil =>
      show splitAux (joinWords [w]) [] = [w]
      rw [show joinWords [w] = w ++ [] by simp [joinWords]]
      rw [splitAux_word w [] [] hw]
      cases hrev : w.reverse with
      | nil => exact absurd (by simpa using hrev) hne
      | cons a as =>
        rw [List.append_nil]
        simp only [splitAux, List.isEmpty_cons, Bool.false_eq_true, if_false]
        rw [← hrev, List.reverse_reverse]
    | cons w2 ws2 =>
      show splitAux (joinWords (w :: w2 :: ws2)) [] = _
      rw [joinWords_cons_cons, splitAux_word w _ [] hw, List.append_nil]
      have hsp : isPySpace ' ' = true := by decide
      cases hrev : w.reverse with
      | nil => exact absurd (by simpa using hrev) hne
      | cons a as =>
        simp only [splitAux, hsp, if_true, List.isEmpty_cons,
          Bool.false_eq_true, if_false]
        rw [← hrev, List.reverse_reverse]
        exact congrArg (w :: ·) (ih (fun x hx => h x (by simp [hx])))

theorem joinWords_mem : ∀ (ws : List (List Char)) (c : Char), c ∈ joinWords ws →
    c = ' ' ∨ ∃ w ∈ ws, c ∈ w := by
  intro ws
  induction ws with
  | nil => intro c hc; simp [joinWords] at hc
  | cons w ws ih =>
    intro c hc
    cases ws with
    | nil => exact Or.inr ⟨w, by simp, by simpa [joinWords] using hc⟩
    | cons w2 ws2 =>
      rw [joinWords_cons_cons] at hc
      rcases List.mem_append.mp hc with h | h
      · exact Or.inr ⟨w, by simp, h⟩
      · rcases List.mem_cons.mp h with h | h
        · exact Or.inl h
        · rcases ih c h with h | ⟨w', hw', hc'⟩
          · exact Or.inl h
          · exact Or.inr ⟨w', by simp [hw'], hc'⟩

theorem dropWhile_eq_self_of_all {p : Char → Bool} : ∀ (l : List Char),
    (∀ c ∈ l, p c = false) → l.dropWhile p = l := by
  intro l h
  cases l with
  | nil => rfl
  | cons a t => rw [List.dropWhile_cons, if_neg (by simp [h a (by simp)])]

theorem dropWhile_cons_head {p : Char → Bool} (a : Char) (t : List Char)
    (h : p a = false) : (a :: t).dropWhile p = a :: t := by
  rw [List.dropWhile_cons, if_neg (by simp [h])]

theorem head_false_of_dropWhile_self {p : Char → Bool} (a : Char) (t : List Char)
    (h : (a :: t).dropWhile p = a :: t) : p a = false := by
  by_contra hp
  rw [List.dropWhile_cons, if_pos (by simpa using hp)] at h
  have hle := (List.dropWhile_sublist (l := t) p).length_le
  rw [h] at hle
  simp at hle

theorem joinWords_ne_nil (w : List Char) (ws : List (List Char)) (hne : w ≠ []) :
    joinWords (w :: ws) ≠ [] := by
  cases ws with
  | nil => simpa [joinWords] using hne
  | cons w2 ws2 =>
    rw [joinWords_cons_cons]
    cases w with
    | nil => exact absurd rfl hne
    | cons a t => simp

theorem dropWhile_joinWords : ∀ (ws : List (List Char)),
    (∀ w ∈ ws, w ≠ [] ∧ ∀ c ∈ w, isPySpace c = false) →
    (joinWords ws).dropWhile isPySpace = joinWords ws := by
  intro ws
  cases ws with
  | nil => intro _; rfl
  | cons w ws =>
    intro h
    obtain ⟨hne, hw⟩ := h w (by simp)
    cases w with
    | nil => exact absurd rfl hne
    | cons a t =>
      have ha : isPySpace a = false := hw a (by simp)
      cases ws with
      | nil => exact dropWhile_cons_head a t ha
      | cons w2 ws2 =>
        rw [joinWords_cons_cons, List.cons_append]
        exact dropWhile_cons_head a _ ha

theorem dropWhile_reverse_joinWords : ∀ (ws : List (List Char)),
    (∀ w ∈ ws, w ≠ [] ∧ ∀ c ∈ w, isPySpace c = false) →
    (joinWords ws).reverse.dropWhile isPySpace = (joinWords ws).reverse := by
  intro ws
  induction ws with
  | nil => intro _; rfl
  | cons w ws ih =>
    intro h
    obtain ⟨hne, hw⟩ := h w (by simp)
    cases ws with
    | nil =>
      refine dropWhile_eq_self_of_all _ (fun c hc => ?_)
      exact hw c (List.mem_reverse.mp (by simpa [joinWords] using hc))
    | cons w2 ws2 =>
      have hih := ih (fun x hx => h x (by simp [hx]))
      have hJne : joinWords (w2 :: ws2) ≠ [] :=
        joinWords_ne_nil w2 ws2 (h w2 (by simp)).1
      rw [joinWords_cons_cons, List.reverse_append, List.reverse_cons]
      cases hJr : (joinWords (w2 :: ws2)).reverse with
      | nil => exact absurd (by simpa using hJr) hJne
      | cons a as =>
        have ha : isPySpace a = false := by
          apply head_false_of_dropWhile_self a as
          rw [← hJr]
          exact hih
        rw [List.append_assoc, List.cons_append]
        exact dropWhile_cons_head a _ ha

theorem pyStrip_joinWords (ws : List (List Char))
    (h : ∀ w ∈ ws, w ≠ [] ∧ ∀ c ∈ w, isPySpace c = false) :
    pyStrip (joinWords ws) = joinWords ws := by
  unfold pyStrip
  rw [dropWhile_joinWords ws h, dropWhile_reverse_joinWords ws h,
    List.reverse_reverse]

theorem map_fix {f : Char → Char} (l : List Char) (h : ∀ c ∈ l, f c = c) :
    l.map f = l := by
  rw [List.map_congr_left (g := id) (fun a ha => h a ha), List.map_id]

theorem normalizeChars_idem (l : List Char) :
    normalizeChars (normalizeChars l) = normalizeChars l := by
  have hms : pyReplace (pyLower (pyStrip l)) =
      (pyStrip l).map (fun c => replApos (toLowerChar c)) := by
    simp only [pyReplace, pyLower, List.map_map]
    rfl
  have hQ : ∀ c ∈ pyReplace (pyLower (pyStrip l)),
      toLowerChar c = c ∧ replApos c = c := by
    intro c hc
    rw [hms] at hc
    obtain ⟨d, _, rfl⟩ := List.mem_map.mp hc
    exact stage_fix d
  have hws : ∀ w ∈ splitWords (pyReplace (pyLower (pyStrip l))),
      w ≠ [] ∧ ∀ c ∈ w, isPySpace c = false :=
    splitAux_wordsOK (pyReplace (pyLower (pyStrip l))) [] (by simp)
  have hn : ∀ c ∈ joinWords (splitWords (pyReplace (pyLower (pyStrip l)))),
      toLowerChar c = c ∧ replApos c = c := by
    intro c hc
    rcases joinWords_mem _ c hc with rfl | ⟨w, hw, hcw⟩
    · exact ⟨by decide, by decide⟩
    · rcases splitAux_mem _ [] w c hw hcw with hm | hm
      · exact hQ c hm
      · simp at hm
  show normalizeChars (joinWords (splitWords (pyReplace (pyLower (pyStrip l))))) = _
  unfold normalizeChars
  rw [pyStrip_joinWords _ hws]
  rw [show pyLower (joinWords (splitWords (pyReplace (pyLower (pyStrip l))))) =
      joinWords (splitWords (pyReplace (pyLower (pyStrip l)))) from
    map_fix _ (fun c hc => (hn c hc).1)]
  rw [show pyReplace (joinWords (splitWords (pyReplace (pyLower (pyStrip l))))) =
      joinWords (splitWords (pyReplace (pyLower (pyStrip l)))) from
    map_fix _ (fun c hc => (hn c hc).2)]
  rw [splitWords_joinWords _ hws]

theorem canonGet_some (n v : String) (h : canonGet n = some v) :
    v = "bowser's castle" := by
  unfold canonGet at h
  obtain ⟨p, hp, hv⟩ := Option.map_eq_some'.mp h
  have hmem := List.mem_of_find?_eq_some hp
  have hall : ∀ p ∈ CANON_MAP, p.2 = "bowser's castle" := by decide
  rw [← hv]
  exact hall p hmem

theorem canonicalize_track_bc :
    canonicalize_track "bowser's castle" = "bowser's castle" := by decide

theorem canonicalize_track_eq (raw : String) (h : ¬raw = "") :
    canonicalize_track raw =
      (canonGet ⟨normalizeChars raw.data⟩).getD ⟨normalizeChars raw.data⟩ := by
  unfold canonicalize_track
  rw [if_neg h]

/-- `canonicalize_track` is idempotent: normalization fixes its own output
and the alias dictionary maps onto fixed points. -/
theorem canonicalize_idem (x : String) :
    canonicalize_track (canonicalize_track x) = canonicalize_track x := by
  by_cases hx : x = ""
  · subst hx; rfl
  · rw [canonicalize_track_eq x hx]
    cases hg : canonGet ⟨normalizeChars x.data⟩ with
    | some v =>
      show canonicalize_track v = v
      rw [canonGet_some _ v hg]
      exact canonicalize_track_bc
    | none =>
      show canonicalize_track ⟨normalizeChars x.data⟩ = (⟨normalizeChars x.data⟩ : String)
      by_cases hn : (⟨normalizeChars x.data⟩ : String) = ""
      · rw [hn]; rfl
      · rw [canonicalize_track_eq _ hn]
        rw [show (⟨normalizeChars (String.data ⟨normalizeChars x.data⟩)⟩ : String) =
            (⟨normalizeChars x.data⟩ : String) from by
          show (⟨normalizeChars (normalizeChars x.data)⟩ : String) = _
          rw [normalizeChars_idem]]
        rw [hg]
        rfl

/-! ## Idempotence of the recanonicalization pass -/

theorem recanonGo_cons_none (t : TrackRow) (rest : List TrackRow)
    (cmap : List (String × Nat)) (acc : List TrackRow) (rs : List RaceRow)
    (h : List.lookup (canonicalize_track t.name) cmap = none) :
    recanonGo (t :: rest) cmap acc rs =
      recanonGo rest ((canonicalize_track t.name, t.tid) :: cmap)
        (acc ++ [⟨t.tid, canonicalize_track (canonicalize_track t.name),
          slug_for_track (canonicalize_track (canonicalize_track t.name))⟩]) rs := by
  simp only [recanonGo, h]

theorem recanonGo_cons_some (t : TrackRow) (rest : List TrackRow)
    (cmap : List (String × Nat)) (acc : List TrackRow) (rs : List RaceRow)
    (tid : Nat) (h : List.lookup (canonicalize_track t.name) cmap = some tid) :
    recanonGo (t :: rest) cmap acc rs =
      recanonGo rest cmap acc
        (rs.map (fun r => if r.track = t.tid then { r with track := tid } else r)) := by
  simp only [recanonGo, h]

theorem recanonGo_fixed : ∀ (ts : List TrackRow) (cmap : List (String × Nat))
    (acc : List TrackRow) (rs : List RaceRow),
    (∀ t ∈ ts, canonicalize_track t.name = t.name ∧ t.slug = slug_for_track t.name) →
    ((ts.map TrackRow.name).Nodup) →
    (∀ t ∈ ts, List.lookup t.name cmap = none) →
    recanonGo ts cmap acc rs = (acc ++ ts, rs) := by
  intro ts
  induction ts with
  | nil => intro cmap acc rs _ _ _; simp [recanonGo]
  | cons t rest ih =>
    intro cmap acc rs hfix hnd hlk
    obtain ⟨hc, hs⟩ := hfix t (by simp)
    rw [List.map_cons, List.nodup_cons] at hnd
    rw [recanonGo_cons_none t rest cmap acc rs (by rw [hc]; exact hlk t (by simp))]
    have hcc : canonicalize_track (canonicalize_track t.name) = t.name := by
      rw [canonicalize_idem, hc]
    have ht2 : (⟨t.tid, canonicalize_track (canonicalize_track t.name),
        slug_for_track (canonicalize_track (canonicalize_track t.name))⟩ : TrackRow) = t := by
      rw [hcc, ← hs]
    rw [ht2]
    rw [ih ((canonicalize_track t.name, t.tid) :: cmap) (acc ++ [t]) rs
      (fun x hx => hfix x (by simp [hx])) hnd.2 ?_]
    · simp
    · intro x hx
      rw [List.lookup_cons]
      have hxt : (x.name == canonicalize_track t.name) = false := by
        rw [hc]
        refine beq_false_of_ne (fun heq => hnd.1 ?_)
        exact List.mem_map.mpr ⟨x, hx, heq⟩
      rw [hxt]
      exact hlk x (by simp [hx])

theorem recanonGo_inv : ∀ (ts : List TrackRow) (cmap : List (String × Nat))
    (acc : List TrackRow) (rs : List RaceRow),
    (∀ t ∈ acc, canonicalize_track t.name = t.name ∧ t.slug = slug_for_track t.name ∧
      List.lookup t.name cmap ≠ none) →
    ((acc.map TrackRow.name).Nodup) →
    (∀ t ∈ (recanonGo ts cmap acc rs).1,
        canonicalize_track t.name = t.name ∧ t.slug = slug_for_track t.name) ∧
      (((recanonGo ts cmap acc rs).1.map TrackRow.name).Nodup) := by
  intro ts
  induction ts with
  | nil =>
    intro cmap acc rs hacc hnd
    simp only [recanonGo]
    exact ⟨fun t ht => ⟨(hacc t ht).1, (hacc t ht).2.1⟩, hnd⟩
  | cons t rest ih =>
    intro cmap acc rs hacc hnd
    cases hm : List.lookup (canonicalize_track t.name) cmap with
    | some tid =>
      rw [recanonGo_cons_some t rest cmap acc rs tid hm]
      exact ih cmap acc _ hacc hnd
    | none =>
      rw [recanonGo_cons_none t rest cmap acc rs hm]
      apply ih
      · intro x hx
        rcases List.mem_append.mp hx with hx | hx
        · obtain ⟨h1, h2, h3⟩ := hacc x hx
          refine ⟨h1, h2, ?_⟩
          rw [List.lookup_cons]
          cases hbe : x.name == canonicalize_track t.name with
          | true => simp
          | false => simpa using h3
        · rw [List.mem_singleton] at hx
          subst hx
          refine ⟨canonicalize_idem _, rfl, ?_⟩
          rw [List.lookup_cons]
          have hbe : (canonicalize_track (canonicalize_track t.name) ==
              canonicalize_track t.name) = true := by
            rw [canonicalize_idem]
            exact beq_self_eq_true _
          rw [hbe]
          simp
      · rw [List.map_append]
        refine List.Nodup.append hnd (by simp) ?_
        refine List.disjoint_singleton.mpr (fun hmem => ?_)
        obtain ⟨x, hxacc, hxname⟩ := List.mem_map.mp (by simpa using hmem)
        have h3 := (hacc x hxacc).2.2
        rw [hxname, canonicalize_idem] at h3
        exact h3 hm

theorem recanonAll_eq (st : RState) :
    recanonAll st = ⟨(recanonGo st.tracks [] [] st.races).1,
                     (recanonGo st.tracks [] [] st.races).2⟩ := by
  unfold recanonAll
  cases h : recanonGo st.tracks [] [] st.races
  rfl

/-- C8: recanonicalize_all is idempotent — running the
recanonicalization-and-merge maintenance a second time immediately after a
first run changes nothing: no track name or slug is rewritten to a
different value, no race is reassigned and no track is deleted, because the
first pass leaves every surviving track with a fixed-point name, its slug
derived from that name, and pairwise distinct names. -/
theorem recanonAll_idem (st : RState) : recanonAll (recanonAll st) = recanonAll st := by
  obtain ⟨hfix, hnd⟩ := recanonGo_inv st.tracks [] [] st.races (by simp) (by simp)
  rw [recanonAll_eq st, recanonAll_eq ⟨(recanonGo st.tracks [] [] st.races).1,
    (recanonGo st.tracks [] [] st.races).2⟩]
  rw [show (⟨(recanonGo st.tracks [] [] st.races).1,
      (recanonGo st.tracks [] [] st.races).2⟩ : RState).tracks =
    (recanonGo st.tracks [] [] st.races).1 from rfl]
  rw [show (⟨(recanonGo st.tracks [] [] st.races).1,
      (recanonGo st.tracks [] [] st.races).2⟩ : RState).races =
    (recanonGo st.tracks [] [] st.races).2 from rfl]
  rw [recanonGo_fixed (recanonGo st.tracks [] [] st.races).1 [] []
    (recanonGo st.tracks [] [] st.races).2 hfix hnd (fun t _ => rfl)]
  simp

/-! ## Frame and invariant lemmas for the session engine -/

/-- The stored rows a failing interactive call may leave behind: race and
track tables untouched; the session table either untouched or with one new
empty non-finalized session appended by current-session resolution. -/
def failFrame (u : Nat) (db db' : DB) : Prop :=
  db'.races = db.races ∧ db'.tracks = db.tracks ∧
    (db'.mogis = db.mogis ∨
      ∃ mm : MogiRow, db'.mogis = db.mogis ++ [mm] ∧ mm.owner = u ∧
        mm.finalized = false)

theorem current_mogi_frame (u : Nat) (db : DB) :
    (current_mogi u db).2.races = db.races ∧
    (current_mogi u db).2.tracks = db.tracks ∧
    ((current_mogi u db).2.mogis = db.mogis ∨
      ∃ mm : MogiRow, (current_mogi u db).2.mogis = db.mogis ++ [mm] ∧
        mm.owner = u ∧ mm.finalized = false) := by
  unfold current_mogi
  cases h : db.mogis.find? (fun m => m.owner == u && m.finalized == false) with
  | some m => exact ⟨rfl, rfl, Or.inl rfl⟩
  | none => exact ⟨rfl, rfl, Or.inr ⟨_, rfl, rfl, rfl⟩⟩

theorem current_mogi_failFrame (u : Nat) (db : DB) :
    failFrame u db (current_mogi u db).2 :=
  current_mogi_frame u db

theorem getOrCreateTrack_mogis (raw : String) (db : DB) :
    (getOrCreateTrack raw db).2.mogis = db.mogis := by
  simp only [getOrCreateTrack]
  cases h : List.find? (fun t => t.name == canonicalize_track raw) db.tracks with
  | some t => rfl
  | none => rfl

theorem getOrCreateTrack_races (raw : String) (db : DB) :
    (getOrCreateTrack raw db).2.races = db.races := by
  simp only [getOrCreateTrack]
  cases h : List.find? (fun t => t.name == canonicalize_track raw) db.tracks with
  | some t => rfl
  | none => rfl

theorem add_race_invalid_frame (u : Nat) (tr : String) (p : Int) (db : DB)
    (h : (add_race u tr p db).1 = AddRaceResult.invalidInput) :
    (add_race u tr p db).2 = db := by
  simp only [add_race] at h ⊢
  split_ifs at h ⊢
  rfl

theorem current_mogi_found (u : Nat) (db : DB) (m : MogiRow)
    (h : db.mogis.find? (fun x => x.owner == u && x.finalized == false) = some m) :
    current_mogi u db = (m, db) := by
  unfold current_mogi
  rw [h]

theorem current_mogi_created (u : Nat) (db : DB)
    (h : db.mogis.find? (fun x => x.owner == u && x.finalized == false) = none) :
    current_mogi u db =
      (⟨db.nextMogiId, u, false, ""⟩,
       { db with mogis := db.mogis ++ [⟨db.nextMogiId, u, false, ""⟩],
                 nextMogiId := db.nextMogiId + 1 }) := by
  unfold current_mogi
  rw [h]

theorem add_race_capacity_exact (u : Nat) (tr : String) (p : Int) (db : DB)
    (hwf : ∀ r ∈ db.races, r.mogi < db.nextMogiId)
    (h : (add_race u tr p db).1 = AddRaceResult.capacityFull) :
    (add_race u tr p db).2 = db := by
  simp only [add_race] at h ⊢
  split_ifs at h ⊢ with h1 h2
  cases hf : db.mogis.find? (fun x => x.owner == u && x.finalized == false) with
  | some m => rw [current_mogi_found u db m hf]
  | none =>
    exfalso
    rw [current_mogi_created u db hf] at h2
    simp only [racesOf] at h2
    have hemp : List.filter (fun r => r.mogi == db.nextMogiId) db.races = [] := by
      rw [List.filter_eq_nil_iff]
      intro r hr
      have hlt := hwf r hr
      simp only [beq_iff_eq]
      omega
    rw [hemp] at h2
    simp [maxIndex] at h2

theorem undo_last_noop_frame (u : Nat) (db : DB)
    (h : (undo_last u db).1 = false) :
    failFrame u db (undo_last u db).2 := by
  simp only [undo_last] at h ⊢
  cases hf : List.find?
      (fun r => r.index == maxIndex (racesOf (current_mogi u db).2 (current_mogi u db).1.mid))
      (racesOf (current_mogi u db).2 (current_mogi u db).1.mid) with
  | none => exact current_mogi_failFrame u db
  | some last =>
    rw [hf] at h
    exact absurd h (by simp)

theorem finalize_fail_frame (u : Nat) (db : DB)
    (h : (finalize_current u db).1 = none) :
    failFrame u db (finalize_current u db).2 := by
  simp only [finalize_current] at h ⊢
  split_ifs at h ⊢
  exact current_mogi_failFrame u db

theorem import_error_frame (u : Nat) (pl : ImportPayload) (db : DB)
    (h : import_data u pl db = .error ()) :
    runImport u pl db = db := by
  unfold runImport
  rw [h]

/-! ## At most one open session per owner under the interactive operations -/

/-- How many non-finalized sessions an owner has in the store. -/
def openCount (v : Nat) (db : DB) : Nat :=
  db.mogis.countP (fun m => m.owner == v && m.finalized == false)

theorem openCount_current_mogi (u v : Nat) (db : DB) (h : openCount v db ≤ 1) :
    openCount v (current_mogi u db).2 ≤ 1 := by
  unfold current_mogi
  cases hf : db.mogis.find? (fun m => m.owner == u && m.finalized == false) with
  | some m => exact h
  | none =>
    show openCount v { db with mogis := db.mogis ++ [⟨db.nextMogiId, u, false, ""⟩] } ≤ 1
    unfold openCount at h ⊢
    rw [List.countP_append, List.countP_cons, List.countP_nil]
    by_cases hv : u = v
    · subst hv
      have h0 : db.mogis.countP (fun m => m.owner == u && m.finalized == false) = 0 := by
        rw [List.countP_eq_zero]
        intro m hm
        exact List.find?_eq_none.mp hf m hm
      rw [h0]
      simp
    · have hp : ((⟨db.nextMogiId, u, false, ""⟩ : MogiRow).owner == v &&
          (⟨db.nextMogiId, u, false, ""⟩ : MogiRow).finalized == false) = false := by
        simp [hv]
      rw [hp]
      simpa using h

theorem openCount_races_irrelevant (v : Nat) (db : DB) (rs : List RaceRow) :
    openCount v { db with races := rs } = openCount v db := rfl

theorem openCount_add_race (u v : Nat) (tr : String) (p : Int) (db : DB)
    (h : openCount v db ≤ 1) : openCount v (add_race u tr p db).2 ≤ 1 := by
  simp only [add_race]
  split_ifs with h1 h2
  · exact h
  · exact openCount_current_mogi u v db h
  · unfold openCount
    show List.countP (fun m => m.owner == v && m.finalized == false)
      (getOrCreateTrack tr (current_mogi u db).2).2.mogis ≤ 1
    rw [getOrCreateTrack_mogis]
    exact openCount_current_mogi u v db h

theorem openCount_undo_last (u v : Nat) (db : DB)
    (h : openCount v db ≤ 1) : openCount v (undo_last u db).2 ≤ 1 := by
  simp only [undo_last]
  cases hf : List.find?
      (fun r => r.index == maxIndex (racesOf (current_mogi u db).2 (current_mogi u db).1.mid))
      (racesOf (current_mogi u db).2 (current_mogi u db).1.mid) with
  | none => exact openCount_current_mogi u v db h
  | some last => exact openCount_current_mogi u v db h

theorem openCount_reset (u v : Nat) (db : DB)
    (h : openCount v db ≤ 1) : openCount v (reset_current u db) ≤ 1 := by
  simp only [reset_current]
  exact openCount_current_mogi u v db h

theorem openCount_finalize (u v : Nat) (db : DB)
    (h : openCount v db ≤ 1) : openCount v (finalize_current u db).2 ≤ 1 := by
  simp only [finalize_current]
  split_ifs with h1
  · exact openCount_current_mogi u v db h
  · unfold openCount
    show List.countP (fun m => m.owner == v && m.finalized == false)
      (((current_mogi u db).2.mogis).map (fun x =>
        if x.mid = (current_mogi u db).1.mid then { x with finalized := true }
        else x)) ≤ 1
    rw [List.countP_map]
    refine le_trans (List.countP_mono_left (fun x _ hx => ?_)) (openCount_current_mogi u v db h)
    by_cases hm : x.mid = (current_mogi u db).1.mid
    · simp [Function.comp, hm] at hx
    · simpa [Function.comp, hm] using hx

/-! ## Capacity: a full well-indexed session rejects a 13th race -/

theorem maxIndex_mem_le (rs : List RaceRow) : ∀ r ∈ rs, r.index ≤ maxIndex rs := by
  induction rs with
  | nil => simp
  | cons a t ih =>
    intro r hr
    rcases List.mem_cons.mp hr with rfl | hr
    · exact le_max_left _ _
    · exact le_trans (ih r hr) (le_max_right _ _)

theorem maxIndex_ge_of_12 (rs : List RaceRow) (h12 : rs.length = 12)
    (hnd : (rs.map RaceRow.index).Nodup) (h1 : ∀ r ∈ rs, 1 ≤ r.index) :
    12 ≤ maxIndex rs := by
  by_contra hlt
  push_neg at hlt
  have hsub : (rs.map RaceRow.index).toFinset ⊆ Finset.Icc 1 (maxIndex rs) := by
    intro i hi
    rw [List.mem_toFinset] at hi
    obtain ⟨r, hr, rfl⟩ := List.mem_map.mp hi
    exact Finset.mem_Icc.mpr ⟨h1 r hr, maxIndex_mem_le rs r hr⟩
  have hcard := Finset.card_le_card hsub
  rw [List.toFinset_card_of_nodup hnd, List.length_map, h12, Nat.card_Icc] at hcard
  omega

/-- C6 (amended): for a session holding 12 races whose indices are
pairwise distinct and at least 1 — as the unique (session, index)
constraint and the interactive engine guarantee — add_race fails with the
capacity error, creates no 13th race and leaves the existing race, track
and session rows unchanged. (A session whose 12 races include a payload
index 0, creatable only through bulk import, instead accepts a 13th race:
see the counterexample.) -/
theorem add_race_full_session (u : Nat) (tr : String) (p : Int) (db : DB)
    (htr : tr ≠ "") (hp1 : 1 ≤ p) (hp2 : p ≤ 12)
    (h12 : (racesOf (current_mogi u db).2 (current_mogi u db).1.mid).length = 12)
    (hnd : ((racesOf (current_mogi u db).2 (current_mogi u db).1.mid).map
      RaceRow.index).Nodup)
    (h1 : ∀ r ∈ racesOf (current_mogi u db).2 (current_mogi u db).1.mid,
      1 ≤ r.index) :
    (add_race u tr p db).1 = AddRaceResult.capacityFull ∧
      failFrame u db (add_race u tr p db).2 := by
  have hmax := maxIndex_ge_of_12 _ h12 hnd h1
  simp only [add_race]
  rw [if_neg (by push_neg; exact ⟨htr, by omega, by omega⟩)]
  rw [if_pos (by omega)]
  exact ⟨rfl, current_mogi_failFrame u db⟩

/-! ## Finalization precondition and default points -/

/-- C5: finalize_current fails (and leaves the resolved state unchanged)
whenever the current session's race count is below 12, and when the count
is exactly 12 it succeeds, returning the session id and setting that
session's finalized flag. -/
theorem finalize_current_spec (u : Nat) (db : DB) :
    ((racesOf (current_mogi u db).2 (current_mogi u db).1.mid).length < 12 →
      (finalize_current u db).1 = none ∧
      (finalize_current u db).2 = (current_mogi u db).2) ∧
    ((racesOf (current_mogi u db).2 (current_mogi u db).1.mid).length = 12 →
      (finalize_current u db).1 = some (current_mogi u db).1.mid ∧
      ∀ x ∈ (finalize_current u db).2.mogis,
        x.mid = (current_mogi u db).1.mid → x.finalized = true) := by
  constructor
  · intro hlt
    simp only [finalize_current]
    rw [if_pos (by omega)]
    exact ⟨rfl, rfl⟩
  · intro heq
    simp only [finalize_current]
    rw [if_neg (by omega)]
    refine ⟨rfl, ?_⟩
    intro x hx hmid
    obtain ⟨y, hy, hxy⟩ := List.mem_map.mp hx
    by_cases hy2 : y.mid = (current_mogi u db).1.mid
    · rw [← hxy]
      simp [hy2]
    · rw [← hxy] at hmid
      rw [if_neg hy2] at hmid
      exact absurd hmid hy2

theorem add_race_points_default (u : Nat) (tr : String) (p : Int) (db : DB)
    (mid ni : Nat) (hok : (add_race u tr p db).1 = AddRaceResult.ok mid ni) :
    ((add_race u tr p db).2.races.getLast?).map RaceRow.points =
      some (DEFAULT_POINTS p.toNat) := by
  simp only [add_race] at hok ⊢
  split_ifs at hok ⊢
  rw [List.getLast?_concat]
  simp [raceSavePoints]

/-! ## Shape of slugify's output -/

theorem collapseAux_chars : ∀ (l : List Char) (b : Bool) (c : Char),
    c ∈ collapseAux l b → c = '-' ∨ (c ∈ l ∧ isDashSpace c = false) := by
  intro l
  induction l with
  | nil => intro b c hc; simp [collapseAux] at hc
  | cons d ds ih =>
    intro b c hc
    by_cases hd : isDashSpace d
    · cases b with
      | true =>
        simp only [collapseAux, hd, if_true, if_pos] at hc
        rcases ih true c hc with h | ⟨h1, h2⟩
        · exact Or.inl h
        · exact Or.inr ⟨by simp [h1], h2⟩
      | false =>
        simp only [collapseAux, hd, if_true, Bool.false_eq_true, if_false,
          List.mem_cons] at hc
        rcases hc with rfl | hc
        · exact Or.inl rfl
        · rcases ih true c hc with h | ⟨h1, h2⟩
          · exact Or.inl h
          · exact Or.inr ⟨by simp [h1], h2⟩
    · simp only [collapseAux, hd, Bool.false_eq_true, if_false,
        List.mem_cons] at hc
      rcases hc with rfl | hc
      · exact Or.inr ⟨by simp, by simpa using hd⟩
      · rcases ih false c hc with h | ⟨h1, h2⟩
        · exact Or.inl h
        · exact Or.inr ⟨by simp [h1], h2⟩

theorem collapseAux_head_true : ∀ (l : List Char) (c : Char),
    (collapseAux l true).head? = some c → isDashSpace c = false := by
  intro l
  induction l with
  | nil => intro c hc; simp [collapseAux] at hc
  | cons d ds ih =>
    intro c hc
    by_cases hd : isDashSpace d
    · simp only [collapseAux, hd, if_true, if_pos] at hc
      exact ih c hc
    · simp only [collapseAux, hd, Bool.false_eq_true, if_false,
        List.head?_cons, Option.some.injEq] at hc
      subst hc
      simpa using hd

theorem collapseAux_chain : ∀ (l : List Char) (b : Bool),
    List.Chain' (fun a c => ¬(a = '-' ∧ c = '-')) (collapseAux l b) := by
  intro l
  induction l with
  | nil => intro b; simp [collapseAux]
  | cons d ds ih =>
    intro b
    by_cases hd : isDashSpace d
    · cases b with
      | true =>
        simp only [collapseAux, hd, if_true, if_pos]
        exact ih true
      | false =>
        simp only [collapseAux, hd, if_true, Bool.false_eq_true, if_false]
        rw [List.chain'_cons']
        refine ⟨fun y hy => ?_, ih true⟩
        have := collapseAux_head_true ds y hy
        rintro ⟨-, rfl⟩
        simp [isDashSpace] at this
    · simp only [collapseAux, hd, Bool.false_eq_true, if_false]
      rw [List.chain'_cons']
      refine ⟨fun y hy => ?_, ih false⟩
      rintro ⟨rfl, -⟩
      simp [isDashSpace] at hd

theorem head?_dropWhile {p : Char → Bool} : ∀ (l : List Char) (c : Char),
    (l.dropWhile p).head? = some c → p c = false := by
  intro l
  induction l with
  | nil => intro c hc; simp at hc
  | cons a t ih =>
    intro c hc
    by_cases ha : p a
    · rw [List.dropWhile_cons, if_pos (by simpa using ha)] at hc
      exact ih c hc
    · rw [List.dropWhile_cons, if_neg (by simpa using ha)] at hc
      simp only [List.head?_cons, Option.some.injEq] at hc
      subst hc
      simpa using ha

theorem stripDU_head (l : List Char) (c : Char)
    (h : (stripDashUnderscore l).head? = some c) : isDashUnderscore c = false := by
  unfold stripDashUnderscore at h
  rw [List.head?_reverse] at h
  obtain ⟨pre, hpre⟩ :=
    List.dropWhile_suffix (l := (l.dropWhile isDashUnderscore).reverse)
      isDashUnderscore
  have h2 : ((l.dropWhile isDashUnderscore).reverse).getLast? = some c := by
    rw [← hpre, List.getLast?_append, h]
    rfl
  rw [List.getLast?_reverse] at h2
  exact head?_dropWhile _ c h2

theorem stripDU_last (l : List Char) (c : Char)
    (h : (stripDashUnderscore l).getLast? = some c) : isDashUnderscore c = false := by
  unfold stripDashUnderscore at h
  rw [List.getLast?_reverse] at h
  exact head?_dropWhile _ c h

theorem stripDU_sub (l : List Char) : ∀ c ∈ stripDashUnderscore l, c ∈ l := by
  intro c hc
  unfold stripDashUnderscore at hc
  rw [List.mem_reverse] at hc
  have hc2 := (List.dropWhile_sublist _).subset hc
  rw [List.mem_reverse] at hc2
  exact (List.dropWhile_sublist _).subset hc2

theorem chain_reverse_symm {l : List Char}
    (h : List.Chain' (fun a c => ¬(a = '-' ∧ c = '-')) l) :
    List.Chain' (fun a c => ¬(a = '-' ∧ c = '-')) l.reverse := by
  rw [List.chain'_reverse]
  exact h.imp (fun a b hab => fun hq => hab ⟨hq.2, hq.1⟩)

theorem stripDU_chain (l : List Char)
    (h : List.Chain' (fun a c => ¬(a = '-' ∧ c = '-')) l) :
    List.Chain' (fun a c => ¬(a = '-' ∧ c = '-')) (stripDashUnderscore l) := by
  unfold stripDashUnderscore
  exact chain_reverse_symm
    (((chain_reverse_symm (h.suffix (List.dropWhile_suffix _))).suffix
      (List.dropWhile_suffix _)))

theorem slugify_shape (s : String) :
    pyLower (slugify s).data = (slugify s).data ∧
    (∀ c ∈ (slugify s).data, isPySpace c = false) ∧
    (slugify s).data.head? ≠ some '-' ∧
    (slugify s).data.getLast? ≠ some '-' ∧
    List.Chain' (fun a c => ¬(a = '-' ∧ c = '-')) (slugify s).data := by
  have hmem : ∀ c ∈ (slugify s).data,
      (c = '-' ∨ (toLowerChar c = c ∧ isDashSpace c = false)) := by
    intro c hc
    have hc1 := stripDU_sub _ c hc
    rcases collapseAux_chars _ false c hc1 with h | ⟨h1, h2⟩
    · exact Or.inl h
    · refine Or.inr ⟨?_, h2⟩
      have hc2 := List.mem_of_mem_filter h1
      obtain ⟨d, _, rfl⟩ := List.mem_map.mp hc2
      exact toLowerChar_idem d
  refine ⟨?_, ?_, ?_, ?_, ?_⟩
  · refine map_fix _ (fun c hc => ?_)
    rcases hmem c hc with rfl | ⟨h1, _⟩
    · decide
    · exact h1
  · intro c hc
    rcases hmem c hc with rfl | ⟨_, h2⟩
    · decide
    · simp only [isDashSpace, Bool.or_eq_false_iff] at h2
      exact h2.2
  · intro h
    have := stripDU_head _ _ h
    simp [isDashUnderscore] at this
  · intro h
    have := stripDU_last _ _ h
    simp [isDashUnderscore] at this
  · exact stripDU_chain _ (collapseAux_chain _ false)

/-- Modelled from the spec: the C9 wording of `slug_for` — lowercase, every
maximal run of non-alphanumeric characters replaced by a single hyphen,
trimmed of leading and trailing hyphens. Written only for comparison with
the implementation's `slug_for_track`. -/
def slugSpecCollapse : List Char → Bool → List Char
  | [], _ => []
  | c :: cs, inRun =>
    if c.isAlphanum then c :: slugSpecCollapse cs false
    else if inRun then slugSpecCollapse cs true
    else '-' :: slugSpecCollapse cs true

/-- The spec-worded slug derivation (see `slugSpecCollapse`). -/
def slugSpec (s : String) : String :=
  ⟨(((slugSpecCollapse (pyLower s.data) false).dropWhile
      (fun c => c == '-')).reverse.dropWhile (fun c => c == '-')).reverse⟩

example : slugSpec "bowser's castle" = "bowser-s-castle" := by decide

/-! ## The bulk import endpoint accepts empty canonical track names -/

/-- C10: when a bulk-import tracks entry's name canonicalizes to the empty
string, the endpoint does not reject the payload: the import succeeds,
a track whose canonical name and slug are both empty is created, and the
payload's races referencing that entry's id are linked to it. -/
theorem import_empty_track (s : String) (hs : canonicalize_track s = "") (u : Nat) :
    ∃ db1 : DB,
      import_data u ⟨[⟨1, s⟩], [⟨1, false, ""⟩], [⟨1, 1, 1, 3, 5⟩]⟩ emptyDB =
        .ok db1 ∧
      ∃ t ∈ db1.tracks, t.name = "" ∧ t.slug = "" ∧
        ∃ r ∈ db1.races, r.track = t.tid := by
  refine ⟨⟨[⟨0, "", ""⟩], [⟨0, u, false, ""⟩], [⟨0, 0, 0, 1, 3, 5⟩], 1, 1, 1⟩, ?_, ?_⟩
  · simp only [import_data, importTracks, importMogis, importRaces,
      getOrCreateTrack, hs, emptyDB]
    rfl
  · exact ⟨⟨0, "", ""⟩, by simp, rfl, rfl, ⟨0, 0, 0, 1, 3, 5⟩, by simp, rfl⟩

/-! ## Concrete runs exercising the failure and import paths -/

/-- A store built solely through the bulk import endpoint: one open session
holding 12 races whose payload indices run 0..11 (the endpoint stores the
payload's `index` values unvalidated). -/
def fullZeroDB : DB :=
  runImport 3 ⟨[⟨1, "toad circuit"⟩], [⟨1, false, ""⟩],
    (List.range 12).map (fun i => ⟨1, 1, i, 6, 5⟩)⟩ emptyDB

theorem add_race_13th_succeeds :
    (racesOf fullZeroDB (current_mogi 3 fullZeroDB).1.mid).length = 12 ∧
    (add_race 3 "toad circuit" 5 fullZeroDB).1 = AddRaceResult.ok 0 12 ∧
    (add_race 3 "toad circuit" 5 fullZeroDB).2.races.length = 13 := by decide

theorem undo_last_creates_session_cex :
    (undo_last 0 emptyDB).1 = false ∧ (undo_last 0 emptyDB).2 ≠ emptyDB ∧
    (undo_last 0 emptyDB).2.mogis = [⟨0, 0, false, ""⟩] := by decide

theorem import_two_open_cex :
    openCount 7 (runImport 7 ⟨[], [⟨1, false, ""⟩, ⟨2, false, ""⟩], []⟩ emptyDB) = 2 ∧
    ¬ openCount 7 (runImport 7 ⟨[], [⟨1, false, ""⟩, ⟨2, false, ""⟩], []⟩ emptyDB) ≤ 1 := by
  decide

theorem import_zero_points_cex :
    (runImport 2 ⟨[⟨1, "toad circuit"⟩], [⟨1, true, ""⟩],
      [⟨1, 1, 1, 3, 0⟩]⟩ emptyDB).races.map RaceRow.points = [10] ∧
    DEFAULT_POINTS 3 = 10 := by decide

theorem slug_spec_mismatch_cex :
    slug_for_track "bowser's castle" = "bowsers-castle" ∧
    slugSpec "bowser's castle" = "bowser-s-castle" ∧
    slug_for_track "bowser's castle" ≠ slugSpec "bowser's castle" := by decide

/-! ## Remaining claim-level statements -/

/-- C1 (amended): a failing core call leaves the race and track tables
untouched and the session table unchanged except, at most, for the one
empty non-finalized session that current-session resolution implicitly
creates and keeps even though the call reports failure (undo_last and
finalize_current for an owner with no open session). A failing add_race
leaves the store exactly as it was: for a validation failure outright,
and for a capacity failure given that race rows reference only
already-allocated session ids (the schema's foreign key guarantees this
in the program; it forces the capacity-failing session to pre-exist, so
current-session resolution writes nothing). An aborted bulk import is
rolled back whole. The import's per-race skip is the acknowledged
exception on the success path. -/
theorem fail_paths_frame (u : Nat) (tr : String) (p : Int) (db : DB)
    (pl : ImportPayload) :
    ((add_race u tr p db).1 = AddRaceResult.invalidInput →
      (add_race u tr p db).2 = db) ∧
    ((∀ r ∈ db.races, r.mogi < db.nextMogiId) →
      (add_race u tr p db).1 = AddRaceResult.capacityFull →
      (add_race u tr p db).2 = db) ∧
    ((undo_last u db).1 = false → failFrame u db (undo_last u db).2) ∧
    ((finalize_current u db).1 = none → failFrame u db (finalize_current u db).2) ∧
    (import_data u pl db = .error () → runImport u pl db = db) :=
  ⟨add_race_invalid_frame u tr p db,
   fun hwf h => add_race_capacity_exact u tr p db hwf h,
   undo_last_noop_frame u db, finalize_fail_frame u db,
   import_error_frame u pl db⟩

/-- C2 (amended): the interactive core operations — current-session
resolution, add_race, undo_last, reset_current, finalize_current —
preserve "at most one non-finalized session per owner"; bulk import does
not (see the counterexample). -/
theorem interactive_single_open (u v : Nat) (tr : String) (p : Int) (db : DB)
    (h : openCount v db ≤ 1) :
    openCount v (current_mogi u db).2 ≤ 1 ∧
    openCount v (add_race u tr p db).2 ≤ 1 ∧
    openCount v (undo_last u db).2 ≤ 1 ∧
    openCount v (reset_current u db) ≤ 1 ∧
    openCount v (finalize_current u db).2 ≤ 1 :=
  ⟨openCount_current_mogi u v db h, openCount_add_race u v tr p db h,
   openCount_undo_last u v db h, openCount_reset u v db h,
   openCount_finalize u v db h⟩

theorem interactive_single_open_witness :
    openCount 0 emptyDB ≤ 1 ∧
    openCount 0 (add_race 0 "toad circuit" 3 emptyDB).2 ≤ 1 :=
  ⟨by decide, (interactive_single_open 0 0 "toad circuit" 3 emptyDB (by decide)).2.1⟩

/-- C3 (amended): Race.save stores an explicit points value exactly when it
is nonzero; an explicit 0 is falsy in the source's `if not self.points`
test, is indistinguishable from "not supplied" and is replaced by the
position-based default (see the counterexample for the stored effect
through the import endpoint). -/
theorem race_save_explicit_points (pos : Nat) (pts : Int) (h : pts ≠ 0) :
    raceSavePoints pos pts = pts ∧ raceSavePoints pos 0 = DEFAULT_POINTS pos := by
  constructor
  · simp [raceSavePoints, h]
  · simp [raceSavePoints]

theorem race_save_explicit_points_witness :
    raceSavePoints 3 7 = 7 ∧ raceSavePoints 3 0 = DEFAULT_POINTS 3 :=
  race_save_explicit_points 3 7 (by decide)

/-- C4: a race created through add_race (which supplies no explicit points)
stores the fixed table default for its position, and the table maps
1 ↦ 15, 2 ↦ 12, 3 ↦ 10, 4 ↦ 9, 5 ↦ 8, 6 ↦ 7, 7 ↦ 6, 8 ↦ 5, 9 ↦ 4,
10 ↦ 3, 11 ↦ 2, 12 ↦ 1. -/
theorem default_points_table :
    (∀ (u : Nat) (tr : String) (p : Int) (db : DB) (mid ni : Nat),
      (add_race u tr p db).1 = AddRaceResult.ok mid ni →
      ((add_race u tr p db).2.races.getLast?).map RaceRow.points =
        some (DEFAULT_POINTS p.toNat)) ∧
    DEFAULT_POINTS 1 = 15 ∧ DEFAULT_POINTS 2 = 12 ∧ DEFAULT_POINTS 3 = 10 ∧
    DEFAULT_POINTS 4 = 9 ∧ DEFAULT_POINTS 5 = 8 ∧ DEFAULT_POINTS 6 = 7 ∧
    DEFAULT_POINTS 7 = 6 ∧ DEFAULT_POINTS 8 = 5 ∧ DEFAULT_POINTS 9 = 4 ∧
    DEFAULT_POINTS 10 = 3 ∧ DEFAULT_POINTS 11 = 2 ∧ DEFAULT_POINTS 12 = 1 :=
  ⟨fun u tr p db mid ni h => add_race_points_default u tr p db mid ni h, by decide⟩

/-- C7: canonicalize is idempotent — canonicalizing any string twice equals
canonicalizing it once; in particular every output value of the alias
table is returned unchanged when fed back through the canonicalizer. -/
theorem canonicalize_track_idempotent :
    (∀ x : String,
      canonicalize_track (canonicalize_track x) = canonicalize_track x) ∧
    (∀ p ∈ CANON_MAP, canonicalize_track p.2 = p.2) :=
  ⟨canonicalize_idem, by decide⟩

/-- C9 (amended): slug_for_track's output is fixed under lowercasing,
contains no whitespace and no two adjacent hyphens (whitespace/hyphen runs
were collapsed to a single hyphen), and neither starts nor ends with a
hyphen. Non-alphanumeric characters outside the whitespace-or-hyphen class
(such as the apostrophe) are deleted rather than replaced by a hyphen: see
the counterexample. -/
theorem slug_for_track_shape (s : String) :
    pyLower (slug_for_track s).data = (slug_for_track s).data ∧
    (∀ c ∈ (slug_for_track s).data, isPySpace c = false) ∧
    (slug_for_track s).data.head? ≠ some '-' ∧
    (slug_for_track s).data.getLast? ≠ some '-' ∧
    List.Chain' (fun a c => ¬(a = '-' ∧ c = '-')) (slug_for_track s).data :=
  slugify_shape s

/-- A concrete full session reached through bulk import with well-formed
indices 1..12. -/
def full12DB : DB :=
  runImport 5 ⟨[⟨1, "toad circuit"⟩], [⟨1, false, ""⟩],
    (List.range 12).map (fun i => ⟨1, 1, i + 1, 6, 5⟩)⟩ emptyDB

theorem add_race_full_session_witness :
    (add_race 5 "toad circuit" 5 full12DB).1 = AddRaceResult.capacityFull ∧
    failFrame 5 full12DB (add_race 5 "toad circuit" 5 full12DB).2 :=
  add_race_full_session 5 "toad circuit" 5 full12DB (by decide) (by decide)
    (by decide) (by decide) (by decide) (by decide)

theorem import_empty_track_witness :
    canonicalize_track "   " = "" ∧
    (∃ db1 : DB,
      import_data 4 ⟨[⟨1, "   "⟩], [⟨1, false, ""⟩], [⟨1, 1, 1, 3, 5⟩]⟩ emptyDB =
        .ok db1 ∧
      ∃ t ∈ db1.tracks, t.name = "" ∧ t.slug = "" ∧
        ∃ r ∈ db1.races, r.track = t.tid) :=
  ⟨by decide, import_empty_track "   " (by decide) 4⟩

theorem fail_paths_frame_witness :
    (add_race 5 "toad circuit" 5 full12DB).1 = AddRaceResult.capacityFull ∧
    (add_race 5 "toad circuit" 5 full12DB).2 = full12DB :=
  ⟨by decide, (fail_paths_frame 5 "toad circuit" 5 full12DB ⟨[], [], []⟩).2.1
    (by decide) (by decide)⟩
